import Mathlib

/-!
A shallow embedding of the `bincode-json` crate (src/lib.rs, src/value.rs,
src/ser.rs, src/de.rs, src/error.rs).

Modelling conventions:
* `Value::Object` is backed by `std::collections::HashMap<String, Value>` in the
  source.  We model it as an association list in insertion order (the behaviour
  of the `preserve-order` build discussed in the spec); `HashMap::insert`
  becomes `objInsert` (replace the first binding with the same key, else
  append).  No theorem below depends on a particular iteration order beyond
  this determinisation.
* Rust `i64` is modelled as `Int`, machine casts carry explicit `% 2 ^ 64`
  arithmetic.  `f64` payloads are carried as their raw 64-bit pattern (a `Nat`):
  the encoder and decoder of the crate never inspect a float, they move it
  bit-for-bit.
* Byte sequences are `List Nat`.
* Fallible operations return `Except Error`.
-/

namespace BincodeJson

/-- The dynamic value tree of `src/value.rs` (`enum Value`). -/
inductive Value where
  | null
  | boolean (b : Bool)
  | blob (bs : List Nat)
  | array (a : List Value)
  | integer (i : Int)
  | float (bits : Nat)
  | object (o : List (String × Value))
  | string (s : String)
deriving Repr

/-- The error taxonomy of `src/error.rs` (`enum Error`).  `bincode` wraps an
external codec failure; the remaining constructors match the Rust variants. -/
inductive Error where
  | bincode (msg : String)
  | custom (msg : String)
  | expected (e f : String)
  | duplicated (fld : String)
  | missing (fld : String)
  | unknown (fld : String)
  | eof
deriving DecidableEq, Repr

/-- `Value::error_description` of `src/value.rs`: the fixed human-readable
label per variant. -/
def error_description : Value → String
  | .null => "type null"
  | .blob _ => "type blob"
  | .boolean _ => "type boolean"
  | .integer _ => "type integer"
  | .float _ => "type float"
  | .object _ => "type object"
  | .string _ => "type string"
  | .array _ => "type array"

/-- `HashMap::insert` on the association-list model of `Object`: replace the
first binding of the key, else append. -/
def objInsert : List (String × Value) → String → Value → List (String × Value)
  | [], k, v => [(k, v)]
  | (k', v') :: rest, k, v =>
    if k' = k then (k', v) :: rest else (k', v') :: objInsert rest k v

/-! ### The external binary codec

Modelled from the spec: the byte-level encoder/decoder for the Value tree
(the `bincode` crate with its standard configuration, used by `to_vec` /
`from_slice` in `src/lib.rs`) is an external collaborator whose code is not
part of this repository.  The spec's contract (§6) requires only: given a
Value produce a byte sequence, given a byte sequence produce
`(Value, bytes consumed)` or fail, and the two directions round-trip every
Value shape exactly.  We realise that contract with a simple self-delimiting
tag-plus-payload code and prove the required round-trip property. -/

/-- Unary, zero-terminated encoding of a natural number. -/
def encNat : Nat → List Nat
  | 0 => [0]
  | n + 1 => 1 :: encNat n

def decNat : List Nat → Option (Nat × List Nat)
  | 0 :: rest => some (0, rest)
  | 1 :: rest =>
    match decNat rest with
    | some (n, r) => some (n + 1, r)
    | none => none
  | _ => none

theorem decNat_encNat (n : Nat) (r : List Nat) :
    decNat (encNat n ++ r) = some (n, r) := by
  induction n with
  | zero => rfl
  | succ m ih => simp [encNat, decNat, ih]

/-- Zig-zag embedding of an integer into the naturals. -/
def zigzag (i : Int) : Nat :=
  if 0 ≤ i then 2 * i.toNat else 2 * (-i).toNat - 1

def unzigzag (n : Nat) : Int :=
  if n % 2 = 0 then (n / 2 : Nat) else -((n / 2 : Nat) + 1)

theorem unzigzag_zigzag (i : Int) : unzigzag (zigzag i) = i := by
  rcases i with n | n
  · simp [zigzag, unzigzag, Nat.mul_div_cancel_left]
  · have h1 : ¬(0 : Int) ≤ Int.negSucc n := by simp [Int.negSucc_eq]; omega
    simp only [zigzag, unzigzag, if_neg h1]
    have h2 : (-Int.negSucc n).toNat = n + 1 := by
      simp [Int.negSucc_eq]
    rw [h2]
    have h3 : 2 * (n + 1) - 1 = 2 * n + 1 := by omega
    rw [h3]
    have h4 : (2 * n + 1) % 2 = 1 := by omega
    have h5 : (2 * n + 1) / 2 = n := by omega
    simp [h4, h5, Int.negSucc_eq]

def encInt (i : Int) : List Nat := encNat (zigzag i)

def decInt (bs : List Nat) : Option (Int × List Nat) :=
  match decNat bs with
  | some (n, r) => some (unzigzag n, r)
  | none => none

theorem decInt_encInt (i : Int) (r : List Nat) :
    decInt (encInt i ++ r) = some (i, r) := by
  simp [encInt, decInt, decNat_encNat, unzigzag_zigzag]

/-- Length-prefixed list of naturals. -/
def encNats : List Nat → List Nat
  | [] => []
  | n :: ns => encNat n ++ encNats ns

def decNats : Nat → List Nat → Option (List Nat × List Nat)
  | 0, bs => some ([], bs)
  | count + 1, bs =>
    match decNat bs with
    | some (n, r) =>
      match decNats count r with
      | some (ns, r') => some (n :: ns, r')
      | none => none
    | none => none

theorem decNats_encNats (ns : List Nat) (r : List Nat) :
    decNats ns.length (encNats ns ++ r) = some (ns, r) := by
  induction ns with
  | nil => rfl
  | cons n ns ih => simp [encNats, decNats, decNat_encNat, ih]

def encString (s : String) : List Nat :=
  encNat s.data.length ++ encNats (s.data.map Char.toNat)

def decString (bs : List Nat) : Option (String × List Nat) :=
  match decNat bs with
  | some (count, r) =>
    match decNats count r with
    | some (ns, r') => some (⟨ns.map Char.ofNat⟩, r')
    | none => none
  | none => none

theorem decString_encString (s : String) (r : List Nat) :
    decString (encString s ++ r) = some (s, r) := by
  simp only [encString, decString, List.append_assoc, decNat_encNat]
  rw [show s.data.length = (s.data.map Char.toNat).length by simp]
  rw [decNats_encNats]
  simp [List.map_map, Function.comp_def, Char.ofNat_toNat]

mutual
def encValue : Value → List Nat
  | .null => [0]
  | .boolean b => [1, cond b 1 0]
  | .blob bs => 2 :: encNat bs.length ++ encNats bs
  | .array a => 3 :: encNat a.length ++ encValues a
  | .integer i => 4 :: encInt i
  | .float bits => 5 :: encNat bits
  | .object o => 6 :: encNat o.length ++ encEntries o
  | .string s => 7 :: encString s
def encValues : List Value → List Nat
  | [] => []
  | v :: vs => encValue v ++ encValues vs
def encEntries : List (String × Value) → List Nat
  | [] => []
  | (k, v) :: vs => encString k ++ encValue v ++ encEntries vs
end

mutual
def decValueF : Nat → List Nat → Option (Value × List Nat)
  | 0, _ => none
  | fuel + 1, bs =>
    match bs with
    | 0 :: r => some (.null, r)
    | 1 :: b :: r => some (.boolean (b == 1), r)
    | 2 :: r =>
      match decNat r with
      | some (count, r') =>
        match decNats count r' with
        | some (ns, r'') => some (.blob ns, r'')
        | none => none
      | none => none
    | 3 :: r =>
      match decNat r with
      | some (count, r') =>
        match decValuesF fuel count r' with
        | some (vs, r'') => some (.array vs, r'')
        | none => none
      | none => none
    | 4 :: r =>
      match decInt r with
      | some (i, r') => some (.integer i, r')
      | none => none
    | 5 :: r =>
      match decNat r with
      | some (bits, r') => some (.float bits, r')
      | none => none
    | 6 :: r =>
      match decNat r with
      | some (count, r') =>
        match decEntriesF fuel count r' with
        | some (o, r'') => some (.object o, r'')
        | none => none
      | none => none
    | 7 :: r =>
      match decString r with
      | some (s, r') => some (.string s, r')
      | none => none
    | _ => none
def decValuesF : Nat → Nat → List Nat → Option (List Value × List Nat)
  | 0, _, _ => none
  | _ + 1, 0, bs => some ([], bs)
  | fuel + 1, count + 1, bs =>
    match decValueF fuel bs with
    | some (v, r) =>
      match decValuesF fuel count r with
      | some (vs, r') => some (v :: vs, r')
      | none => none
    | none => none
def decEntriesF : Nat → Nat → List Nat → Option (List (String × Value) × List Nat)
  | 0, _, _ => none
  | _ + 1, 0, bs => some ([], bs)
  | fuel + 1, count + 1, bs =>
    match decString bs with
    | some (k, r) =>
      match decValueF fuel r with
      | some (v, r') =>
        match decEntriesF fuel count r' with
        | some (o, r'') => some ((k, v) :: o, r'')
        | none => none
      | none => none
    | none => none
end

theorem bind_ok {α β : Type} (a : α) (f : α → Except Error β) :
    (Except.ok a >>= f) = f a := rfl

theorem bind_error {α β : Type} (e : Error) (f : α → Except Error β) :
    ((Except.error e : Except Error α) >>= f) = Except.error e := rfl

theorem encNat_length (n : Nat) : (encNat n).length = n + 1 := by
  induction n with
  | zero => rfl
  | succ m ih => simp [encNat, ih]

theorem encValue_length_pos (v : Value) : 0 < (encValue v).length := by
  cases v <;> simp [encValue]

mutual
theorem decValueF_encValue : ∀ fuel v r, (encValue v).length ≤ fuel →
    decValueF fuel (encValue v ++ r) = some (v, r)
  | 0, v, _, h => by
    have := encValue_length_pos v
    omega
  | fuel + 1, .null, r, _ => by simp [encValue, decValueF]
  | fuel + 1, .boolean b, r, _ => by cases b <;> simp [encValue, decValueF]
  | fuel + 1, .blob bs, r, _ => by
    simp [encValue, decValueF, decNat_encNat, decNats_encNats]
  | fuel + 1, .array a, r, h => by
    have hlist : (encValues a).length + a.length < fuel := by
      simp [encValue, encNat_length] at h
      omega
    simp [encValue, decValueF, decNat_encNat, decValuesF_encValues fuel a r hlist]
  | fuel + 1, .integer i, r, _ => by simp [encValue, decValueF, decInt_encInt]
  | fuel + 1, .float bits, r, _ => by simp [encValue, decValueF, decNat_encNat]
  | fuel + 1, .object o, r, h => by
    have hlist : (encEntries o).length + o.length < fuel := by
      simp [encValue, encNat_length] at h
      omega
    simp [encValue, decValueF, decNat_encNat, decEntriesF_encEntries fuel o r hlist]
  | fuel + 1, .string s, r, _ => by simp [encValue, decValueF, decString_encString]
theorem decValuesF_encValues : ∀ fuel vs r, (encValues vs).length + vs.length < fuel →
    decValuesF fuel vs.length (encValues vs ++ r) = some (vs, r)
  | 0, vs, _, h => by omega
  | fuel + 1, [], r, _ => by simp [encValues, decValuesF]
  | fuel + 1, v :: vs, r, h => by
    have hp := encValue_length_pos v
    have h1 : (encValue v).length ≤ fuel := by
      simp [encValues] at h
      omega
    have h2 : (encValues vs).length + vs.length < fuel := by
      simp [encValues] at h
      omega
    simp [encValues, decValuesF, decValueF_encValue fuel v _ h1,
      decValuesF_encValues fuel vs r h2]
theorem decEntriesF_encEntries : ∀ fuel o r, (encEntries o).length + o.length < fuel →
    decEntriesF fuel o.length (encEntries o ++ r) = some (o, r)
  | 0, o, _, h => by omega
  | fuel + 1, [], r, _ => by simp [encEntries, decEntriesF]
  | fuel + 1, (k, v) :: o, r, h => by
    have hp := encValue_length_pos v
    have h1 : (encValue v).length ≤ fuel := by
      simp [encEntries] at h
      omega
    have h2 : (encEntries o).length + o.length < fuel := by
      simp [encEntries] at h
      omega
    simp [encEntries, decEntriesF, decString_encString,
      decValueF_encValue fuel v _ h1, decEntriesF_encEntries fuel o r h2]
end

/-- `bincode::encode_to_vec` on a `Value` (spec-modelled external codec). -/
def encodeBytes (v : Value) : List Nat := encValue v

/-- `bincode::decode_from_slice` on a `Value` (spec-modelled external codec):
returns the decoded value and the remaining bytes, or a wrapped codec error. -/
def decodeBytes (bs : List Nat) : Except Error (Value × List Nat) :=
  match decValueF (bs.length + 1) bs with
  | some (v, r) => .ok (v, r)
  | none => .error (.bincode "decode")

theorem decodeBytes_encodeBytes (v : Value) :
    decodeBytes (encodeBytes v) = .ok (v, []) := by
  have h := decValueF_encValue ((encValue v).length + 1) v []
    (by omega)
  simp only [encodeBytes, decodeBytes]
  rw [show encValue v = encValue v ++ [] by simp] at h ⊢
  simp only [List.append_nil] at h ⊢
  rw [h]

/-! ### The universe of supported typed values

The crate serialises/deserialises arbitrary serde types.  We embed the shapes
of §4.2's table: the type descriptors `Ty` (what drives the derived
`Deserialize` impl) and the typed values `Typed` (what drives the derived
`Serialize` impl).  A `Typed` value corresponds to a Rust value of the type
described by `tyOf`. -/

/-- Rust integer widths. -/
inductive Width where
  | w8
  | w16
  | w32
  | w64
deriving DecidableEq, Repr

def widthBits : Width → Nat
  | .w8 => 8
  | .w16 => 16
  | .w32 => 32
  | .w64 => 64

mutual
/-- Target type descriptors: one per serde data-model shape handled by
`src/de.rs`. -/
inductive Ty where
  | bool
  | int (w : Width)
  | uint (w : Width)
  | f64
  | char
  | str
  | bytes
  | unit
  | unitStruct (name : String)
  | option (t : Ty)
  | seq (t : Ty)
  | tup (ts : List Ty)
  | map (kt vt : Ty)
  | structT (name : String) (fields : List (String × Ty))
  | newtype (name : String) (t : Ty)
  | enum (name : String) (variants : List (String × VariantKind))
/-- The four kinds of tagged-union cases (serde variants). -/
inductive VariantKind where
  | unitV
  | newtypeV (t : Ty)
  | tupleV (ts : List Ty)
  | structV (fields : List (String × Ty))
end

mutual
/-- Typed in-memory values: one constructor per row of the encoder table. -/
inductive Typed where
  | tBool (b : Bool)
  | tInt (w : Width) (i : Int)
  | tUInt (w : Width) (n : Nat)
  | tF64 (bits : Nat)
  | tChar (c : Char)
  | tStr (s : String)
  | tBytes (bs : List Nat)
  | tUnit
  | tUnitStruct (name : String)
  | tNone (t : Ty)
  | tSome (v : Typed)
  | tSeq (t : Ty) (vs : List Typed)
  | tTuple (vs : List Typed)
  | tMap (kt vt : Ty) (entries : List (Typed × Typed))
  | tStruct (name : String) (fields : List (String × Typed))
  | tNewtype (name : String) (v : Typed)
  | tEnum (name : String) (variants : List (String × VariantKind))
      (tag : String) (payload : Payload)
/-- The payload carried by a tagged-union value. -/
inductive Payload where
  | pUnit
  | pNewtype (v : Typed)
  | pTuple (vs : List Typed)
  | pStruct (fields : List (String × Typed))
end

mutual
/-- The Rust type of a typed value. -/
def tyOf : Typed → Ty
  | .tBool _ => .bool
  | .tInt w _ => .int w
  | .tUInt w _ => .uint w
  | .tF64 _ => .f64
  | .tChar _ => .char
  | .tStr _ => .str
  | .tBytes _ => .bytes
  | .tUnit => .unit
  | .tUnitStruct n => .unitStruct n
  | .tNone t => .option t
  | .tSome v => .option (tyOf v)
  | .tSeq t _ => .seq t
  | .tTuple vs => .tup (tyOfList vs)
  | .tMap kt vt _ => .map kt vt
  | .tStruct n fs => .structT n (tyOfFields fs)
  | .tNewtype n v => .newtype n (tyOf v)
  | .tEnum n vs _ _ => .enum n vs
def tyOfList : List Typed → List Ty
  | [] => []
  | v :: vs => tyOf v :: tyOfList vs
def tyOfFields : List (String × Typed) → List (String × Ty)
  | [] => []
  | (k, v) :: vs => (k, tyOf v) :: tyOfFields vs
end

/-- Rust `v as i64` applied to an unsigned value of width `w`
(`serialize_u8/u16/u32/u64` in `src/ser.rs` all cast with `as _`): widths
below 64 bits zero-extend, `u64` reinterprets the bit pattern as a signed
64-bit two's-complement number. -/
def uintAsI64 (w : Width) (n : Nat) : Int :=
  let m := n % 2 ^ widthBits w
  if m < 2 ^ 63 then (m : Int) else (m : Int) - 2 ^ 64

mutual
/-- `to_value` of `src/lib.rs`: the `Serializer` of `src/ser.rs` composed with
the derived `Serialize` impl of the typed value's shape. -/
def toValue : Typed → Except Error Value
  | .tBool b => .ok (.boolean b)
  | .tInt _ i => .ok (.integer i)
  | .tUInt w n => .ok (.integer (uintAsI64 w n))
  | .tF64 bits => .ok (.float bits)
  | .tChar c => .ok (.string (String.singleton c))
  | .tStr s => .ok (.string s)
  | .tBytes bs => .ok (.blob bs)
  | .tUnit => .ok (.array [])
  | .tUnitStruct _ => .ok (.array [])
  | .tNone _ => .ok .null
  | .tSome v => toValue v
  | .tSeq _ vs => (toValueList vs).map .array
  | .tTuple vs => (toValueList vs).map .array
  | .tMap _ _ entries => (toValueMap entries []).map .object
  | .tStruct _ fs => (toValueFields fs []).map .object
  | .tNewtype _ v => toValue v
  | .tEnum _ _ tag .pUnit => .ok (.string tag)
  | .tEnum _ _ tag (.pNewtype v) =>
    (toValue v).map fun pv => .object (objInsert [] tag pv)
  | .tEnum _ _ tag (.pTuple vs) =>
    (toValueList vs).map fun l => .object (objInsert [] tag (.array l))
  | .tEnum _ _ tag (.pStruct fs) =>
    (toValueFields fs []).map fun o => .object (objInsert [] tag (.object o))
def toValueList : List Typed → Except Error (List Value)
  | [] => .ok []
  | v :: vs =>
    toValue v >>= fun hd => (toValueList vs).map fun tl => hd :: tl
/-- `SerializeStruct`/`SerializeStructVariant`: serialize each field value and
`insert` it under the field name. -/
def toValueFields :
    List (String × Typed) → List (String × Value) → Except Error (List (String × Value))
  | [], acc => .ok acc
  | (k, v) :: rest, acc =>
    toValue v >>= fun vv => toValueFields rest (objInsert acc k vv)
/-- `SerializeMap`: `serialize_key` demands the key's encoded `Value` be a
`String` (else `Error::Expected("type str", <label>)`), then the entry is
inserted. -/
def toValueMap :
    List (Typed × Typed) → List (String × Value) → Except Error (List (String × Value))
  | [], acc => .ok acc
  | (k, v) :: rest, acc =>
    toValue k >>= fun kv =>
      match kv with
      | .string s =>
        toValue v >>= fun vv => toValueMap rest (objInsert acc s vv)
      | other => .error (.expected "type str" (error_description other))
end

/-! ### The decoder

`from_value` drives `Deserializer` of `src/de.rs` against the target type's
`Deserialize` impl.  For primitive targets those impls are serde's stock
visitors (`impls.rs` of the serde crate); for structs/enums they are the
visitors generated by `serde_derive` with default attributes.  Both are
stable, well-known code; the relevant behaviour is reproduced here and noted
case by case. -/

/-- The `Display` form of the `serde::de::Unexpected` value produced when
`deserialize_any` (de.rs lines 63-91) routes a `Value` into a default
(unimplemented) `Visitor` method, which raises
`Error::invalid_type(unexp, &self)`; `src/error.rs` turns that into
`Error::Expected(exp.to_string(), unexp.to_string())`.
`Null` is routed to `visit_none` (`Unexpected::Option`), `Blob` to
`visit_byte_buf`/`visit_bytes` (`Unexpected::Bytes`), `Array` to `visit_seq`
(`Unexpected::Seq`), `Object` to `visit_map` (`Unexpected::Map`), and the
scalar variants to their `visit_*` with the value embedded.  The float label
is abstracted at the bit level (Rust prints the decimal value; no theorem
below depends on a float label), and Rust's `{:?}` escaping of the string
label is not modelled (no theorem depends on a string label with escapes). -/
def unexpLabel : Value → String
  | .null => "Option value"
  | .boolean b => "boolean `" ++ (cond b "true" "false") ++ "`"
  | .blob _ => "byte array"
  | .array _ => "sequence"
  | .integer i => "integer `" ++ toString i ++ "`"
  | .float bits => "floating point `" ++ toString bits ++ "`"
  | .object _ => "map"
  | .string s => "string \"" ++ s ++ "\""

/-- A type mismatch surfaced through a default visitor method: the visitor's
`expecting` description on the expected side, the `Unexpected` label on the
found side. -/
def mismatch {α : Type} (expecting : String) (v : Value) : Except Error α :=
  .error (.expected expecting (unexpLabel v))

mutual
/-- `Value::deserialize` against this crate's own `Deserializer`: the
`Visitor` of `src/value.rs` rebuilds the tree (`visit_map` re-inserts each
entry into a fresh map).  Used by `unit_variant` (de.rs line 374) to consume
and discard a payload. -/
def valueDeserialize : Value → Except Error Value
  | .null => .ok .null
  | .boolean b => .ok (.boolean b)
  | .blob bs => .ok (.blob bs)
  | .integer i => .ok (.integer i)
  | .float bits => .ok (.float bits)
  | .string s => .ok (.string s)
  | .array a => (valueDeserializeList a).map .array
  | .object o => (valueDeserializeEntries o []).map .object
def valueDeserializeList : List Value → Except Error (List Value)
  | [] => .ok []
  | v :: vs =>
    valueDeserialize v >>= fun v' =>
      (valueDeserializeList vs).map fun vs' => v' :: vs'
def valueDeserializeEntries :
    List (String × Value) → List (String × Value) → Except Error (List (String × Value))
  | [], acc => .ok acc
  | (k, v) :: rest, acc =>
    valueDeserialize v >>= fun v' => valueDeserializeEntries rest (objInsert acc k v')
end

def intTyName : Width → String
  | .w8 => "i8"
  | .w16 => "i16"
  | .w32 => "i32"
  | .w64 => "i64"

def uintTyName : Width → String
  | .w8 => "u8"
  | .w16 => "u16"
  | .w32 => "u32"
  | .w64 => "u64"

def intMinI (w : Width) : Int := -(2 ^ (widthBits w - 1))

def intMaxI (w : Width) : Int := 2 ^ (widthBits w - 1) - 1

def uintMaxI (w : Width) : Int := 2 ^ widthBits w - 1

/-- serde's `u8` visitor applied to one sequence element, as used by
`serde_bytes`' sequence fallback. -/
def decodeByteElem : Value → Except Error Nat
  | .integer i =>
    if 0 ≤ i ∧ i ≤ 255 then .ok i.toNat
    else .error (.expected "u8" (unexpLabel (.integer i)))
  | v => mismatch "u8" v

def decodeByteElems : List Value → Except Error (List Nat)
  | [] => .ok []
  | v :: vs =>
    decodeByteElem v >>= fun b => (decodeByteElems vs).map fun bs => b :: bs

/-- Bit pattern of `i as f64` (serde's `f64` visitor accepts `visit_i64` by
numeric conversion).  The float conversion itself is not modelled — floats
are opaque bit patterns here — and no theorem depends on this branch. -/
def intToF64Bits (_ : Int) : Nat := 0

/-- Field slots for the derived struct visitor's `visit_map` loop:
declared name, declared type, decoded value once seen. -/
def initSlots : List (String × Ty) → List (String × Ty × Option Typed)
  | [] => []
  | (n, t) :: rest => (n, t, none) :: initSlots rest

def findSlot : List (String × Ty × Option Typed) → String → Option (Ty × Bool)
  | [], _ => none
  | (n, t, filled) :: rest, k =>
    if n = k then some (t, filled.isSome) else findSlot rest k

def setSlot :
    List (String × Ty × Option Typed) → String → Typed → List (String × Ty × Option Typed)
  | [], _, _ => []
  | (n, t, filled) :: rest, k, x =>
    if n = k then (n, t, some x) :: rest else (n, t, filled) :: setSlot rest k x

/-- After the `visit_map` loop the derived visitor unwraps each field,
reporting the first one never seen via `missing_field`. -/
def finishSlots : List (String × Ty × Option Typed) → Except Error (List (String × Typed))
  | [] => .ok []
  | (n, _, some x) :: rest => (finishSlots rest).map fun l => (n, x) :: l
  | (n, _, none) :: _ => .error (.missing n)

/-- `visit_enum` on a bare `String` tag (de.rs lines 113-118): the variant
identifier is deserialized from the tag string, and `VariantAccess` runs with
`VariantDeserializer.val = None`: a unit case succeeds, any
payload-expecting case fails with `Error::Eof`
(`newtype_variant_seed`/`tuple_variant`/`struct_variant` all
`self.val.take().ok_or(Error::Eof)`). -/
def decodeVariantBare (n : String) (variants : List (String × VariantKind))
    (tag : String) : Except Error Typed :=
  match variants.lookup tag with
  | none => .error (.unknown tag)
  | some .unitV => .ok (.tEnum n variants tag .pUnit)
  | some (.newtypeV _) => .error .eof
  | some (.tupleV _) => .error .eof
  | some (.structV _) => .error .eof

set_option maxHeartbeats 1000000 in
mutual
/-- `from_value` of `src/lib.rs`: `T::deserialize(Deserializer::from(val))`
for the target shape `t`.  Dispatch follows `deserialize_any` /
`deserialize_option` / `deserialize_enum` / `deserialize_newtype_struct` of
`src/de.rs` (all other `deserialize_*` methods forward to `deserialize_any`),
combined with the target's (stock or derived) visitor. -/
def fromValue : Ty → Value → Except Error Typed
  | .bool, .boolean b => .ok (.tBool b)
  | .bool, v => mismatch "a boolean" v
  | .int .w64, .integer i => .ok (.tInt .w64 i)
  | .int w, .integer i =>
    if intMinI w ≤ i ∧ i ≤ intMaxI w then .ok (.tInt w i)
    else .error (.expected (intTyName w) (unexpLabel (.integer i)))
  | .int w, v => mismatch (intTyName w) v
  | .uint .w64, .integer i =>
    if 0 ≤ i then .ok (.tUInt .w64 i.toNat)
    else .error (.expected "u64" (unexpLabel (.integer i)))
  | .uint w, .integer i =>
    if 0 ≤ i ∧ i ≤ uintMaxI w then .ok (.tUInt w i.toNat)
    else .error (.expected (uintTyName w) (unexpLabel (.integer i)))
  | .uint w, v => mismatch (uintTyName w) v
  | .f64, .float bits => .ok (.tF64 bits)
  | .f64, .integer i => .ok (.tF64 (intToF64Bits i))
  | .f64, v => mismatch "f64" v
  | .char, .string s =>
    match s.data with
    | [c] => .ok (.tChar c)
    | _ => .error (.expected "a character" (unexpLabel (.string s)))
  | .char, v => mismatch "a character" v
  | .str, .string s => .ok (.tStr s)
  | .str, v => mismatch "a string" v
  | .bytes, .blob bs => .ok (.tBytes bs)
  | .bytes, .string s => .ok (.tBytes (s.toUTF8.toList.map UInt8.toNat))
  | .bytes, .array a => (decodeByteElems a).map .tBytes
  | .bytes, v => mismatch "byte array" v
  | .unit, v => mismatch "unit" v
  | .unitStruct n, v => mismatch ("unit struct " ++ n) v
  | .option t, .null => .ok (.tNone t)
  | .option t, v => (fromValue t v).map .tSome
  | .seq t, .array a => (decodeSeqElems t a).map (.tSeq t)
  | .seq _, v => mismatch "a sequence" v
  | .tup ts, .array a =>
    (decodeTupleElems ("a tuple of size " ++ toString ts.length) ts 0 a).map .tTuple
  | .tup ts, v => mismatch ("a tuple of size " ++ toString ts.length) v
  | .map kt vt, .object o => (decodeMapEntries kt vt o).map (.tMap kt vt)
  | .map _ _, v => mismatch "a map" v
  | .structT n tfs, .object o =>
    structGo (initSlots tfs) o >>= fun slots => (finishSlots slots).map (.tStruct n)
  | .structT n tfs, .array a =>
    (decodeStructSeq ("struct " ++ n ++ " with " ++ toString tfs.length ++ " elements")
      tfs 0 a).map (.tStruct n)
  | .structT n _, v => mismatch ("struct " ++ n) v
  | .newtype n t, v => (fromValue t v).map (.tNewtype n)
  | .enum n variants, .string tag => decodeVariantBare n variants tag
  | .enum _ _, .object [] => .error (.expected "variant name" "empty object")
  | .enum n variants, .object [(tag, pv)] => decodeVariant n variants tag pv
  | .enum _ _, .object (_ :: (k2, _) :: _) =>
    .error (.expected "map with a single key" ("extra key \"" ++ k2 ++ "\""))
  | .enum _ _, v => .error (.expected (error_description v) "expected an enum")
termination_by t v => (sizeOf v, sizeOf t)
/-- `visit_enum` on an `Object` with exactly one key: the derived visitor
deserializes the variant identifier from the tag string (`unknown_variant`
if it is not a declared name), then drives `VariantAccess`
(de.rs lines 368-423) per the declared kind of the matched case, with
`VariantDeserializer.val = Some(payload)`. -/
def decodeVariant (n : String) (variants : List (String × VariantKind))
    (tag : String) : Value → Except Error Typed
  | pv =>
    match variants.lookup tag with
    | none => .error (.unknown tag)
    | some .unitV =>
      (valueDeserialize pv).map fun _ => .tEnum n variants tag .pUnit
    | some (.newtypeV t) =>
      (fromValue t pv).map fun x => .tEnum n variants tag (.pNewtype x)
    | some (.tupleV ts) =>
      (decodeTupleVariant n tag ts pv).map fun xs => .tEnum n variants tag (.pTuple xs)
    | some (.structV fs) =>
      (decodeStructVariant fs pv).map fun dfs => .tEnum n variants tag (.pStruct dfs)
termination_by pv => (sizeOf pv + 2, 0)
/-- `tuple_variant` (de.rs lines 386-403): a non-`Array` payload fails with
the (swapped) `Expected(<label of payload>, "expected a tuple")`; an `Array`
payload is handed to `SeqDeserializer::deserialize_any`, which sends an empty
array to `visit_unit` — unimplemented on the derived tuple-variant visitor —
and a non-empty one to the positional field loop. -/
def decodeTupleVariant (n tag : String) (ts : List Ty) :
    Value → Except Error (List Typed)
  | .array [] =>
    .error (.expected ("tuple variant " ++ n ++ "::" ++ tag) "unit value")
  | .array fields =>
    decodeTupleElems
      ("tuple variant " ++ n ++ "::" ++ tag ++ " with " ++
        toString ts.length ++ " elements") ts 0 fields
  | other => .error (.expected (error_description other) "expected a tuple")
termination_by pv => (sizeOf pv + 1, 0)
/-- `struct_variant` (de.rs lines 405-423): a non-`Object` payload fails with
the (swapped) `Expected(<label of payload>, "expected a struct")`; an
`Object` payload is handed to `MapDeserializer::deserialize_any`, i.e. the
derived field-slot loop. -/
def decodeStructVariant (fs : List (String × Ty)) :
    Value → Except Error (List (String × Typed))
  | .object o => structGo (initSlots fs) o >>= finishSlots
  | other => .error (.expected (error_description other) "expected a struct")
termination_by pv => (sizeOf pv + 1, 0)
def decodeSeqElems (t : Ty) : List Value → Except Error (List Typed)
  | [] => .ok []
  | v :: vs =>
    fromValue t v >>= fun x => (decodeSeqElems t vs).map fun xs => x :: xs
termination_by vs => (sizeOf vs, 0)
/-- The positional element loop shared by stock tuple visitors and derived
positional visitors: a missing element raises `invalid_length(i, &exp)`,
which `src/error.rs` renders as `Expected("length i", exp)`; surplus elements
are left unread. -/
def decodeTupleElems (expecting : String) :
    List Ty → Nat → List Value → Except Error (List Typed)
  | [], _, _ => .ok []
  | _ :: _, idx, [] => .error (.expected ("length " ++ toString idx) expecting)
  | t :: ts, idx, v :: vs =>
    fromValue t v >>= fun x =>
      (decodeTupleElems expecting ts (idx + 1) vs).map fun xs => x :: xs
termination_by _ _ vs => (sizeOf vs, 0)
def decodeMapEntries (kt vt : Ty) :
    List (String × Value) → Except Error (List (Typed × Typed))
  | [] => .ok []
  | (k, v) :: rest =>
    fromValue kt (.string k) >>= fun dk =>
      fromValue vt v >>= fun dv =>
        (decodeMapEntries kt vt rest).map fun es => (dk, dv) :: es
termination_by es => (sizeOf es, 0)
/-- The derived struct (and struct-variant) visitor's `visit_map` loop: each
key is matched against the declared field names (an undeclared key and its
value are consumed as `IgnoredAny`, which never fails on this deserializer),
a repeated field raises `duplicate_field`, and a declared field's value is
decoded at its declared type. -/
def structGo (slots : List (String × Ty × Option Typed)) :
    List (String × Value) → Except Error (List (String × Ty × Option Typed))
  | [] => .ok slots
  | (k, v) :: rest =>
    match findSlot slots k with
    | none => structGo slots rest
    | some (_, true) => .error (.duplicated k)
    | some (t, false) =>
      fromValue t v >>= fun x => structGo (setSlot slots k x) rest
termination_by es => (sizeOf es, 0)
/-- The derived struct visitor's `visit_seq`: fields decoded positionally. -/
def decodeStructSeq (expecting : String) :
    List (String × Ty) → Nat → List Value → Except Error (List (String × Typed))
  | [], _, _ => .ok []
  | _ :: _, idx, [] => .error (.expected ("length " ++ toString idx) expecting)
  | (fn, ft) :: tfs, idx, v :: vs =>
    fromValue ft v >>= fun x =>
      (decodeStructSeq expecting tfs (idx + 1) vs).map fun xs => (fn, x) :: xs
termination_by _ _ vs => (sizeOf vs, 0)
end

/-! ### The facade (`src/lib.rs`) -/

/-- `to_vec`: encode to a `Value`, then binary-encode it. -/
def to_vec (v : Typed) : Except Error (List Nat) :=
  (toValue v).map encodeBytes

/-- `from_slice` at target shape `t`: binary-decode a `Value` (ignoring
trailing bytes), then decode it. -/
def from_slice (t : Ty) (bs : List Nat) : Except Error Typed :=
  decodeBytes bs >>= fun p => fromValue t p.1

def exOk {α : Type} : Except Error α → Bool
  | .ok _ => true
  | .error _ => false

/-- The string a mapping key encodes to (meaningful when its encoding is a
`String`). -/
def keyStr (k : Typed) : String :=
  match toValue k with
  | .ok (.string s) => s
  | _ => ""

def mapKeyStrs (entries : List (Typed × Typed)) : List String :=
  entries.map fun kv => keyStr kv.1

/-! ### `GoodKeys`: the exact domain of the encoder

Encoding in `src/ser.rs` can fail only in `serialize_key` (a mapping key
whose encoded `Value` is not a `String`); `GoodKeys` says every mapping key
in the tree encodes to a `String`. -/

mutual
def GoodKeys : Typed → Prop
  | .tBool _ => True
  | .tInt _ _ => True
  | .tUInt _ _ => True
  | .tF64 _ => True
  | .tChar _ => True
  | .tStr _ => True
  | .tBytes _ => True
  | .tUnit => True
  | .tUnitStruct _ => True
  | .tNone _ => True
  | .tSome v => GoodKeys v
  | .tSeq _ vs => GoodKeysList vs
  | .tTuple vs => GoodKeysList vs
  | .tMap _ _ entries => GoodKeysMap entries
  | .tStruct _ fs => GoodKeysFields fs
  | .tNewtype _ v => GoodKeys v
  | .tEnum _ _ _ .pUnit => True
  | .tEnum _ _ _ (.pNewtype v) => GoodKeys v
  | .tEnum _ _ _ (.pTuple vs) => GoodKeysList vs
  | .tEnum _ _ _ (.pStruct fs) => GoodKeysFields fs
def GoodKeysList : List Typed → Prop
  | [] => True
  | v :: vs => GoodKeys v ∧ GoodKeysList vs
def GoodKeysFields : List (String × Typed) → Prop
  | [] => True
  | (_, v) :: fs => GoodKeys v ∧ GoodKeysFields fs
def GoodKeysMap : List (Typed × Typed) → Prop
  | [] => True
  | (k, v) :: rest =>
    (∃ s, toValue k = .ok (.string s)) ∧ GoodKeys v ∧ GoodKeysMap rest
end

/-! ### `RoundSafe`: the domain on which decoding inverts encoding

Excluded (each exclusion forced by the code, see the claim theorems):
unit-shaped values (`tUnit`/`tUnitStruct` and empty tuple-variant payloads)
which the decoder can never rebuild; `u64` values at or above `2 ^ 63`,
whose sign-reinterpreted encoding is rejected on decode; and present
optionals whose payload encodes to `Null`, which decode back to absent.
Required: integer values within their declared width, sequence/map element
types matching the declaration, the value's variant tag declared with the
matching payload kind, distinct struct field names, and mapping keys that
encode to pairwise-distinct strings. -/

/-- `u64` values of `2 ^ 63` and above do not survive the signed
reinterpretation; all other widths round-trip over their full range. -/
def uintSafeMax : Width → Int
  | .w64 => 2 ^ 63 - 1
  | w => 2 ^ widthBits w - 1

mutual
def RoundSafe : Typed → Prop
  | .tBool _ => True
  | .tInt w i => intMinI w ≤ i ∧ i ≤ intMaxI w
  | .tUInt w n => (n : Int) ≤ uintSafeMax w
  | .tF64 _ => True
  | .tChar _ => True
  | .tStr _ => True
  | .tBytes _ => True
  | .tUnit => False
  | .tUnitStruct _ => False
  | .tNone _ => True
  | .tSome v => RoundSafe v ∧ toValue v ≠ .ok .null
  | .tSeq t vs => RoundSafeSeq t vs
  | .tTuple vs => RoundSafeList vs
  | .tMap kt vt entries => RoundSafeMap kt vt entries ∧ (mapKeyStrs entries).Nodup
  | .tStruct _ fs => RoundSafeFields fs ∧ (List.map Prod.fst fs).Nodup
  | .tNewtype _ v => RoundSafe v
  | .tEnum _ variants tag .pUnit => variants.lookup tag = some .unitV
  | .tEnum _ variants tag (.pNewtype v) =>
    variants.lookup tag = some (.newtypeV (tyOf v)) ∧ RoundSafe v
  | .tEnum _ variants tag (.pTuple vs) =>
    variants.lookup tag = some (.tupleV (tyOfList vs)) ∧ vs ≠ [] ∧ RoundSafeList vs
  | .tEnum _ variants tag (.pStruct fs) =>
    variants.lookup tag = some (.structV (tyOfFields fs)) ∧
      RoundSafeFields fs ∧ (List.map Prod.fst fs).Nodup
def RoundSafeList : List Typed → Prop
  | [] => True
  | v :: vs => RoundSafe v ∧ RoundSafeList vs
def RoundSafeSeq : Ty → List Typed → Prop
  | _, [] => True
  | t, v :: vs => tyOf v = t ∧ RoundSafe v ∧ RoundSafeSeq t vs
def RoundSafeFields : List (String × Typed) → Prop
  | [] => True
  | (_, v) :: fs => RoundSafe v ∧ RoundSafeFields fs
def RoundSafeMap : Ty → Ty → List (Typed × Typed) → Prop
  | _, _, [] => True
  | kt, vt, (k, v) :: rest =>
    tyOf k = kt ∧ tyOf v = vt ∧ RoundSafe k ∧ RoundSafe v ∧
      toValue k = .ok (.string (keyStr k)) ∧ RoundSafeMap kt vt rest
end

/-! ### Helper lemmas -/

theorem exOk_map {α β : Type} (f : α → β) (x : Except Error α) :
    exOk (x.map f) = exOk x := by
  cases x <;> simp [exOk, Except.map]

mutual
theorem valueDeserialize_ok : ∀ v, ∃ w, valueDeserialize v = .ok w
  | .null => ⟨_, rfl⟩
  | .boolean _ => ⟨_, rfl⟩
  | .blob _ => ⟨_, rfl⟩
  | .integer _ => ⟨_, rfl⟩
  | .float _ => ⟨_, rfl⟩
  | .string _ => ⟨_, rfl⟩
  | .array a => by
    obtain ⟨ws, hws⟩ := valueDeserializeList_ok a
    exact ⟨.array ws, by simp [valueDeserialize, hws, Except.map]⟩
  | .object o => by
    obtain ⟨ws, hws⟩ := valueDeserializeEntries_ok o []
    exact ⟨.object ws, by simp [valueDeserialize, hws, Except.map]⟩
theorem valueDeserializeList_ok : ∀ vs, ∃ ws, valueDeserializeList vs = .ok ws
  | [] => ⟨_, rfl⟩
  | v :: vs => by
    obtain ⟨w, hw⟩ := valueDeserialize_ok v
    obtain ⟨ws, hws⟩ := valueDeserializeList_ok vs
    exact ⟨w :: ws, by simp [valueDeserializeList, hw, hws, bind_ok, Except.map]⟩
theorem valueDeserializeEntries_ok :
    ∀ o acc, ∃ ws, valueDeserializeEntries o acc = .ok ws
  | [], acc => ⟨_, rfl⟩
  | (k, v) :: rest, acc => by
    obtain ⟨w, hw⟩ := valueDeserialize_ok v
    obtain ⟨ws, hws⟩ := valueDeserializeEntries_ok rest (objInsert acc k w)
    exact ⟨ws, by simp [valueDeserializeEntries, hw, hws, bind_ok]⟩
end

theorem objInsert_notMem (acc : List (String × Value)) (k : String) (v : Value)
    (h : k ∉ List.map Prod.fst acc) : objInsert acc k v = acc ++ [(k, v)] := by
  induction acc with
  | nil => rfl
  | cons kv rest ih =>
    obtain ⟨k', v'⟩ := kv
    simp only [List.map_cons, List.mem_cons] at h
    push_neg at h
    simp [objInsert, Ne.symm h.1, ih h.2]

/-- The field-serialisation loop with an accumulator whose keys are fresh
behaves as plain appending. -/
theorem toValueFields_acc :
    ∀ (fs : List (String × Typed)) (acc : List (String × Value)),
    (∀ k ∈ List.map Prod.fst fs, k ∉ List.map Prod.fst acc) →
    (List.map Prod.fst fs).Nodup →
    toValueFields fs acc = (toValueFields fs []).map fun es => acc ++ es := by
  intro fs
  induction fs with
  | nil => intro acc _ _; simp [toValueFields, Except.map]
  | cons kv rest ih =>
    obtain ⟨k, v⟩ := kv
    intro acc hdisj hnodup
    simp only [List.map_cons, List.mem_cons, List.nodup_cons] at hdisj hnodup
    simp only [toValueFields]
    cases htv : toValue v with
    | error e => simp [bind_error, Except.map]
    | ok vv =>
      simp only [bind_ok]
      have hk : k ∉ List.map Prod.fst acc := hdisj k (Or.inl rfl)
      rw [show objInsert acc k vv = acc ++ [(k, vv)] from objInsert_notMem acc k vv hk]
      rw [show objInsert [] k vv = [(k, vv)] from rfl]
      rw [ih (acc ++ [(k, vv)])
        (by
          intro k' hk'
          simp only [List.map_append, List.map_cons, List.map_nil, List.mem_append,
            List.mem_singleton]
          push_neg
          exact ⟨hdisj k' (Or.inr hk'), fun he => hnodup.1 (he ▸ hk')⟩)
        hnodup.2]
      rw [ih [(k, vv)]
        (by
          intro k' hk'
          simp only [List.map_cons, List.map_nil, List.mem_singleton]
          exact fun he => hnodup.1 (he ▸ hk'))
        hnodup.2]
      cases toValueFields rest [] <;> simp [Except.map]

/-- Same for the mapping-serialisation loop, keyed by the encoded key
strings. -/
theorem toValueMap_acc :
    ∀ (entries : List (Typed × Typed)) (kt vt : Ty) (acc : List (String × Value)),
    RoundSafeMap kt vt entries →
    (∀ s ∈ mapKeyStrs entries, s ∉ List.map Prod.fst acc) →
    (mapKeyStrs entries).Nodup →
    toValueMap entries acc = (toValueMap entries []).map fun es => acc ++ es := by
  intro entries
  induction entries with
  | nil => intro kt vt acc _ _ _; simp [toValueMap, Except.map]
  | cons kv rest ih =>
    obtain ⟨k, v⟩ := kv
    intro kt vt acc hrs hdisj hnodup
    obtain ⟨-, -, -, -, hkstr, hrest⟩ := hrs
    simp only [mapKeyStrs, List.map_cons, List.mem_cons, List.nodup_cons] at hdisj hnodup
    simp only [toValueMap, hkstr, bind_ok]
    cases htv : toValue v with
    | error e => simp [bind_error, Except.map]
    | ok vv =>
      simp only [bind_ok]
      have hk : keyStr k ∉ List.map Prod.fst acc := hdisj _ (Or.inl rfl)
      rw [show objInsert acc (keyStr k) vv = acc ++ [(keyStr k, vv)] from
        objInsert_notMem acc _ vv hk]
      rw [show objInsert [] (keyStr k) vv = [(keyStr k, vv)] from rfl]
      rw [ih kt vt (acc ++ [(keyStr k, vv)]) hrest
        (by
          intro s hs
          simp only [List.map_append, List.map_cons, List.map_nil, List.mem_append,
            List.mem_singleton]
          push_neg
          refine ⟨hdisj s (Or.inr hs), fun he => hnodup.1 (he ▸ hs)⟩)
        hnodup.2]
      rw [ih kt vt [(keyStr k, vv)] hrest
        (by
          intro s hs
          simp only [List.map_cons, List.map_nil, List.mem_singleton]
          exact fun he => hnodup.1 (he ▸ hs))
        hnodup.2]
      cases toValueMap rest [] <;> simp [Except.map]

/-! ### Decode predicates: pointwise statements produced by the round-trip
induction and consumed by the loop lemmas below. -/

/-- Each element decodes, at its own type, back to itself. -/
def TupleDecode : List Typed → List Value → Prop
  | [], [] => True
  | v :: vs, ev :: es => fromValue (tyOf v) ev = .ok v ∧ TupleDecode vs es
  | _, _ => False

/-- Each element decodes, at the declared element type, back to itself. -/
def SeqDecode (t : Ty) : List Typed → List Value → Prop
  | [], [] => True
  | v :: vs, ev :: es => fromValue t ev = .ok v ∧ SeqDecode t vs es
  | _, _ => False

/-- Each encoded field carries its field's name and a value that decodes back
to the field's value. -/
def FieldsDecode : List (String × Typed) → List (String × Value) → Prop
  | [], [] => True
  | (k, v) :: fs, (k', ev) :: es =>
    k' = k ∧ fromValue (tyOf v) ev = .ok v ∧ FieldsDecode fs es
  | _, _ => False

/-- Each encoded entry carries the key's encoded string (which decodes back to
the key) and a value that decodes back to the entry's value. -/
def MapDecode (kt vt : Ty) : List (Typed × Typed) → List (String × Value) → Prop
  | [], [] => True
  | (k, v) :: rest, (s, ev) :: es =>
    s = keyStr k ∧ fromValue kt (.string s) = .ok k ∧ fromValue vt ev = .ok v ∧
      MapDecode kt vt rest es
  | _, _ => False

theorem decodeSeqElems_of (t : Ty) :
    ∀ vs es, SeqDecode t vs es → decodeSeqElems t es = .ok vs := by
  intro vs
  induction vs with
  | nil =>
    intro es h
    cases es with
    | nil => simp [decodeSeqElems]
    | cons e es => simp [SeqDecode] at h
  | cons v vs ih =>
    intro es h
    cases es with
    | nil => simp [SeqDecode] at h
    | cons ev es =>
      obtain ⟨h1, h2⟩ := h
      simp [decodeSeqElems, h1, bind_ok, ih es h2, Except.map]

theorem decodeTupleElems_of :
    ∀ vs es (expecting : String) (idx : Nat), TupleDecode vs es →
    decodeTupleElems expecting (tyOfList vs) idx es = .ok vs := by
  intro vs
  induction vs with
  | nil =>
    intro es expecting idx h
    cases es with
    | nil => simp [tyOfList, decodeTupleElems]
    | cons e es => simp [TupleDecode] at h
  | cons v vs ih =>
    intro es expecting idx h
    cases es with
    | nil => simp [TupleDecode] at h
    | cons ev es =>
      obtain ⟨h1, h2⟩ := h
      simp [tyOfList, decodeTupleElems, h1, bind_ok, ih es expecting (idx + 1) h2,
        Except.map]

theorem decodeMapEntries_of (kt vt : Ty) :
    ∀ entries es, MapDecode kt vt entries es →
    decodeMapEntries kt vt es = .ok entries := by
  intro entries
  induction entries with
  | nil =>
    intro es h
    cases es with
    | nil => simp [decodeMapEntries]
    | cons e es => simp [MapDecode] at h
  | cons kv rest ih =>
    obtain ⟨k, v⟩ := kv
    intro es h
    cases es with
    | nil => simp [MapDecode] at h
    | cons se es =>
      obtain ⟨s, ev⟩ := se
      obtain ⟨h1, h2, h3, h4⟩ := h
      subst h1
      simp [decodeMapEntries, h2, h3, bind_ok, ih es h4, Except.map]

/-! ### Slot-machine lemmas for the derived struct visitor -/

/-- The slots after every declared field has been seen exactly once. -/
def fullSlots : List (String × Typed) → List (String × Ty × Option Typed)
  | [] => []
  | (k, v) :: fs => (k, tyOf v, some v) :: fullSlots fs

theorem findSlot_append (pre rest : List (String × Ty × Option Typed)) (k : String)
    (h : k ∉ List.map (fun s => s.1) pre) :
    findSlot (pre ++ rest) k = findSlot rest k := by
  induction pre with
  | nil => rfl
  | cons slot pre ih =>
    obtain ⟨n, t, filled⟩ := slot
    simp only [List.map_cons, List.mem_cons] at h
    push_neg at h
    simp [findSlot, Ne.symm h.1, ih h.2]

theorem setSlot_append (pre rest : List (String × Ty × Option Typed)) (k : String)
    (x : Typed) (h : k ∉ List.map (fun s => s.1) pre) :
    setSlot (pre ++ rest) k x = pre ++ setSlot rest k x := by
  induction pre with
  | nil => rfl
  | cons slot pre ih =>
    obtain ⟨n, t, filled⟩ := slot
    simp only [List.map_cons, List.mem_cons] at h
    push_neg at h
    simp [setSlot, Ne.symm h.1, ih h.2]

theorem structGo_full :
    ∀ (fs : List (String × Typed)) (es : List (String × Value))
      (pre : List (String × Ty × Option Typed)),
    FieldsDecode fs es → (List.map Prod.fst fs).Nodup →
    (∀ k ∈ List.map Prod.fst fs, k ∉ List.map (fun s => s.1) pre) →
    structGo (pre ++ initSlots (tyOfFields fs)) es = .ok (pre ++ fullSlots fs) := by
  intro fs
  induction fs with
  | nil =>
    intro es pre h _ _
    cases es with
    | nil => simp [tyOfFields, initSlots, fullSlots, structGo]
    | cons e es => simp [FieldsDecode] at h
  | cons kv fs ih =>
    obtain ⟨k, v⟩ := kv
    intro es pre h hnodup hdisj
    cases es with
    | nil => simp [FieldsDecode] at h
    | cons ke es =>
      obtain ⟨k', ev⟩ := ke
      obtain ⟨hk', hdec, hrest⟩ := h
      subst hk'
      simp only [List.map_cons, List.nodup_cons, List.mem_cons] at hnodup hdisj
      have hkpre : k' ∉ List.map (fun s => s.1) pre := hdisj k' (Or.inl rfl)
      have hfind : findSlot ((k', tyOf v, none) :: initSlots (tyOfFields fs)) k' =
          some (tyOf v, false) := by simp [findSlot]
      have hset : setSlot ((k', tyOf v, none) :: initSlots (tyOfFields fs)) k' v =
          (k', tyOf v, some v) :: initSlots (tyOfFields fs) := by simp [setSlot]
      simp only [tyOfFields, initSlots, fullSlots, structGo,
        findSlot_append pre _ k' hkpre, hfind, hdec, bind_ok,
        setSlot_append pre _ k' v hkpre, hset]
      have := ih es (pre ++ [(k', tyOf v, some v)]) hrest hnodup.2
        (by
          intro k' hk'
          simp only [List.map_append, List.map_cons, List.map_nil, List.mem_append,
            List.mem_singleton]
          push_neg
          exact ⟨hdisj k' (Or.inr hk'), fun he => hnodup.1 (he ▸ hk')⟩)
      simpa [List.append_assoc] using this

theorem finishSlots_full : ∀ fs : List (String × Typed),
    finishSlots (fullSlots fs) = .ok fs := by
  intro fs
  induction fs with
  | nil => rfl
  | cons kv fs ih =>
    obtain ⟨k, v⟩ := kv
    simp [fullSlots, finishSlots, ih, Except.map]

/-! ### Small `fromValue` facts -/

theorem fromValue_option_notNull (t : Ty) (v : Value) (h : v ≠ .null) :
    fromValue (.option t) v = (fromValue t v).map .tSome := by
  cases v <;> first
    | exact absurd rfl h
    | simp [fromValue]

theorem uintAsI64_eq_self (w : Width) (n : Nat) (h : (n : Int) ≤ uintSafeMax w) :
    uintAsI64 w n = (n : Int) := by
  cases w <;>
    · simp only [uintSafeMax, widthBits] at h
      simp only [uintAsI64, widthBits]
      norm_num
      omega

/-! ### Encoding succeeds exactly on `GoodKeys` -/

mutual
theorem toValue_isOk : ∀ v, exOk (toValue v) = true ↔ GoodKeys v
  | .tBool _ => by simp [toValue, exOk, GoodKeys]
  | .tInt _ _ => by simp [toValue, exOk, GoodKeys]
  | .tUInt _ _ => by simp [toValue, exOk, GoodKeys]
  | .tF64 _ => by simp [toValue, exOk, GoodKeys]
  | .tChar _ => by simp [toValue, exOk, GoodKeys]
  | .tStr _ => by simp [toValue, exOk, GoodKeys]
  | .tBytes _ => by simp [toValue, exOk, GoodKeys]
  | .tUnit => by simp [toValue, exOk, GoodKeys]
  | .tUnitStruct _ => by simp [toValue, exOk, GoodKeys]
  | .tNone _ => by simp [toValue, exOk, GoodKeys]
  | .tSome v => by simpa [toValue, GoodKeys] using toValue_isOk v
  | .tSeq t vs => by
    simpa [toValue, GoodKeys, exOk_map] using toValueList_isOk vs
  | .tTuple vs => by
    simpa [toValue, GoodKeys, exOk_map] using toValueList_isOk vs
  | .tMap kt vt entries => by
    simpa [toValue, GoodKeys, exOk_map] using toValueMap_isOk entries []
  | .tStruct _ fs => by
    simpa [toValue, GoodKeys, exOk_map] using toValueFields_isOk fs []
  | .tNewtype _ v => by simpa [toValue, GoodKeys] using toValue_isOk v
  | .tEnum _ _ _ .pUnit => by simp [toValue, exOk, GoodKeys]
  | .tEnum _ _ _ (.pNewtype v) => by
    simpa [toValue, GoodKeys, exOk_map] using toValue_isOk v
  | .tEnum _ _ _ (.pTuple vs) => by
    simpa [toValue, GoodKeys, exOk_map] using toValueList_isOk vs
  | .tEnum _ _ _ (.pStruct fs) => by
    simpa [toValue, GoodKeys, exOk_map] using toValueFields_isOk fs []
theorem toValueList_isOk : ∀ vs, exOk (toValueList vs) = true ↔ GoodKeysList vs
  | [] => by simp [toValueList, exOk, GoodKeysList]
  | v :: vs => by
    have h1 := toValue_isOk v
    have h2 := toValueList_isOk vs
    cases htv : toValue v with
    | error e =>
      rw [htv] at h1
      simp only [exOk] at h1
      simp [toValueList, htv, bind_error, exOk, GoodKeysList, ← h1]
    | ok vv =>
      rw [htv] at h1
      simp only [exOk] at h1
      cases htl : toValueList vs with
      | error e =>
        rw [htl] at h2
        simp only [exOk] at h2
        simp [toValueList, htv, htl, bind_ok, exOk, GoodKeysList, ← h2, Except.map]
      | ok l =>
        rw [htl] at h2
        simp only [exOk] at h2
        simp [toValueList, htv, htl, bind_ok, exOk, GoodKeysList, ← h1, ← h2,
          Except.map]
theorem toValueFields_isOk :
    ∀ fs acc, exOk (toValueFields fs acc) = true ↔ GoodKeysFields fs
  | [], _ => by simp [toValueFields, exOk, GoodKeysFields]
  | (k, v) :: fs, acc => by
    have h1 := toValue_isOk v
    cases htv : toValue v with
    | error e =>
      rw [htv] at h1
      simp only [exOk] at h1
      simp [toValueFields, htv, bind_error, exOk, GoodKeysFields, ← h1]
    | ok vv =>
      rw [htv] at h1
      simp only [exOk] at h1
      have h2 := toValueFields_isOk fs (objInsert acc k vv)
      simp [toValueFields, htv, bind_ok, GoodKeysFields, ← h1, h2]
theorem toValueMap_isOk :
    ∀ entries acc, exOk (toValueMap entries acc) = true ↔ GoodKeysMap entries
  | [], _ => by simp [toValueMap, exOk, GoodKeysMap]
  | (k, v) :: rest, acc => by
    have h1 := toValue_isOk v
    cases htk : toValue k with
    | error e =>
      simp only [toValueMap, htk, bind_error]
      constructor
      · intro h
        simp [exOk] at h
      · rintro ⟨⟨s, hs⟩, -, -⟩
        rw [htk] at hs
        cases hs
    | ok kv =>
      cases kv with
      | string s =>
        cases htv : toValue v with
        | error e =>
          rw [htv] at h1
          simp only [exOk] at h1
          simp [toValueMap, htk, htv, bind_ok, bind_error, exOk, GoodKeysMap, ← h1]
        | ok vv =>
          rw [htv] at h1
          simp only [exOk] at h1
          have h2 := toValueMap_isOk rest (objInsert acc s vv)
          simp only [toValueMap, htk, htv, bind_ok]
          rw [GoodKeysMap]
          constructor
          · intro h
            exact ⟨⟨s, htk⟩, h1.mp trivial, h2.mp h⟩
          · rintro ⟨-, -, hrest⟩
            exact h2.mpr hrest
      | null => simp [toValueMap, htk, bind_ok, exOk, GoodKeysMap, htk]
      | boolean b => simp [toValueMap, htk, bind_ok, exOk, GoodKeysMap, htk]
      | blob bs => simp [toValueMap, htk, bind_ok, exOk, GoodKeysMap, htk]
      | array a => simp [toValueMap, htk, bind_ok, exOk, GoodKeysMap, htk]
      | integer i => simp [toValueMap, htk, bind_ok, exOk, GoodKeysMap, htk]
      | float bits => simp [toValueMap, htk, bind_ok, exOk, GoodKeysMap, htk]
      | object o => simp [toValueMap, htk, bind_ok, exOk, GoodKeysMap, htk]
end

/-! ### The round-trip induction -/

set_option maxHeartbeats 1000000 in
mutual
theorem roundTrip : ∀ v, RoundSafe v →
    ∃ ev, toValue v = .ok ev ∧ fromValue (tyOf v) ev = .ok v
  | .tBool b, _ => ⟨.boolean b, rfl, by simp [tyOf, fromValue]⟩
  | .tInt w i, h => by
    simp only [RoundSafe] at h
    refine ⟨.integer i, rfl, ?_⟩
    simp only [tyOf]
    cases w with
    | w64 => simp [fromValue]
    | w8 => simp [fromValue, h.1, h.2]
    | w16 => simp [fromValue, h.1, h.2]
    | w32 => simp [fromValue, h.1, h.2]
  | .tUInt w n, h => by
    simp only [RoundSafe] at h
    refine ⟨.integer n, by simp [toValue, uintAsI64_eq_self w n h], ?_⟩
    simp only [tyOf]
    have h0 : (0 : Int) ≤ (n : Int) := Int.natCast_nonneg n
    cases w with
    | w64 => simp [fromValue, h0, Int.toNat_natCast]
    | w8 =>
      have h2 : (n : Int) ≤ uintMaxI .w8 := by
        simpa [uintSafeMax, uintMaxI, widthBits] using h
      simp [fromValue, h0, h2, Int.toNat_natCast]
    | w16 =>
      have h2 : (n : Int) ≤ uintMaxI .w16 := by
        simpa [uintSafeMax, uintMaxI, widthBits] using h
      simp [fromValue, h0, h2, Int.toNat_natCast]
    | w32 =>
      have h2 : (n : Int) ≤ uintMaxI .w32 := by
        simpa [uintSafeMax, uintMaxI, widthBits] using h
      simp [fromValue, h0, h2, Int.toNat_natCast]
  | .tF64 bits, _ => ⟨.float bits, rfl, by simp [tyOf, fromValue]⟩
  | .tChar c, _ =>
    ⟨.string (String.singleton c), rfl, by simp [tyOf, fromValue, String.singleton]⟩
  | .tStr s, _ => ⟨.string s, rfl, by simp [tyOf, fromValue]⟩
  | .tBytes bs, _ => ⟨.blob bs, rfl, by simp [tyOf, fromValue]⟩
  | .tUnit, h => by simp [RoundSafe] at h
  | .tUnitStruct _, h => by simp [RoundSafe] at h
  | .tNone t, _ => ⟨.null, rfl, by simp [tyOf, fromValue]⟩
  | .tSome v, h => by
    simp only [RoundSafe] at h
    obtain ⟨ev, he, hd⟩ := roundTrip v h.1
    have hne : ev ≠ .null := fun hh => h.2 (hh ▸ he)
    refine ⟨ev, by simp [toValue, he], ?_⟩
    simp only [tyOf]
    rw [fromValue_option_notNull _ _ hne, hd]
    rfl
  | .tSeq t vs, h => by
    have h' : RoundSafeSeq t vs := h
    obtain ⟨es, he, hdec⟩ := roundTripSeq t vs h'
    refine ⟨.array es, by simp [toValue, he, Except.map], ?_⟩
    simp only [tyOf]
    simp [fromValue, decodeSeqElems_of t vs es hdec, Except.map]
  | .tTuple vs, h => by
    have h' : RoundSafeList vs := h
    obtain ⟨es, he, hdec⟩ := roundTripList vs h'
    refine ⟨.array es, by simp [toValue, he, Except.map], ?_⟩
    simp only [tyOf]
    simp [fromValue, decodeTupleElems_of vs es _ 0 hdec, Except.map]
  | .tMap kt vt entries, h => by
    simp only [RoundSafe] at h
    obtain ⟨es, he, hdec⟩ := roundTripMap kt vt entries h.1 h.2
    refine ⟨.object es, by simp [toValue, he, Except.map], ?_⟩
    simp only [tyOf]
    simp [fromValue, decodeMapEntries_of kt vt entries es hdec, Except.map]
  | .tStruct n fs, h => by
    simp only [RoundSafe] at h
    obtain ⟨es, he, hdec⟩ := roundTripFields fs h.1 h.2
    refine ⟨.object es, by simp [toValue, he, Except.map], ?_⟩
    simp only [tyOf]
    have hsg := structGo_full fs es [] hdec h.2 (by simp)
    simp only [List.nil_append] at hsg
    simp [fromValue, hsg, bind_ok, finishSlots_full, Except.map]
  | .tNewtype n v, h => by
    have h' : RoundSafe v := h
    obtain ⟨ev, he, hd⟩ := roundTrip v h'
    refine ⟨ev, by simp [toValue, he], ?_⟩
    simp only [tyOf]
    simp [fromValue, hd, Except.map]
  | .tEnum n variants tag .pUnit, h => by
    have h' : variants.lookup tag = some .unitV := h
    refine ⟨.string tag, rfl, ?_⟩
    simp [tyOf, fromValue, decodeVariantBare, h']
  | .tEnum n variants tag (.pNewtype v), h => by
    simp only [RoundSafe] at h
    obtain ⟨ev, he, hd⟩ := roundTrip v h.2
    refine ⟨.object [(tag, ev)], by simp [toValue, he, Except.map, objInsert], ?_⟩
    simp only [tyOf]
    simp [fromValue, decodeVariant, h.1, hd, Except.map]
  | .tEnum n variants tag (.pTuple vs), h => by
    simp only [RoundSafe] at h
    obtain ⟨hl, hne, hvs⟩ := h
    obtain ⟨es, he, hdec⟩ := roundTripList vs hvs
    refine ⟨.object [(tag, .array es)], by simp [toValue, he, Except.map, objInsert], ?_⟩
    simp only [tyOf]
    cases vs with
    | nil => exact absurd rfl hne
    | cons v vs' =>
      cases es with
      | nil => simp [TupleDecode] at hdec
      | cons e es' =>
        have hdt := decodeTupleElems_of (v :: vs') (e :: es')
          ("tuple variant " ++ n ++ "::" ++ tag ++ " with " ++
            toString (tyOfList (v :: vs')).length ++ " elements") 0 hdec
        simp [fromValue, decodeVariant, hl, decodeTupleVariant, hdt, Except.map]
  | .tEnum n variants tag (.pStruct fs), h => by
    simp only [RoundSafe] at h
    obtain ⟨hl, hf, hnd⟩ := h
    obtain ⟨es, he, hdec⟩ := roundTripFields fs hf hnd
    refine ⟨.object [(tag, .object es)],
      by simp [toValue, he, Except.map, objInsert], ?_⟩
    simp only [tyOf]
    have hsg := structGo_full fs es [] hdec hnd (by simp)
    simp only [List.nil_append] at hsg
    simp [fromValue, decodeVariant, hl, decodeStructVariant, hsg, bind_ok,
      finishSlots_full, Except.map]
theorem roundTripList : ∀ vs, RoundSafeList vs →
    ∃ es, toValueList vs = .ok es ∧ TupleDecode vs es
  | [], _ => ⟨[], rfl, trivial⟩
  | v :: vs, h => by
    simp only [RoundSafeList] at h
    obtain ⟨ev, he, hd⟩ := roundTrip v h.1
    obtain ⟨es, hes, hdec⟩ := roundTripList vs h.2
    exact ⟨ev :: es, by simp [toValueList, he, hes, bind_ok, Except.map],
      ⟨hd, hdec⟩⟩
theorem roundTripSeq : ∀ t vs, RoundSafeSeq t vs →
    ∃ es, toValueList vs = .ok es ∧ SeqDecode t vs es
  | _, [], _ => ⟨[], rfl, trivial⟩
  | t, v :: vs, h => by
    simp only [RoundSafeSeq] at h
    obtain ⟨ht, hv, hrest⟩ := h
    obtain ⟨ev, he, hd⟩ := roundTrip v hv
    obtain ⟨es, hes, hdec⟩ := roundTripSeq t vs hrest
    rw [ht] at hd
    exact ⟨ev :: es, by simp [toValueList, he, hes, bind_ok, Except.map],
      ⟨hd, hdec⟩⟩
theorem roundTripFields : ∀ fs, RoundSafeFields fs →
    (List.map Prod.fst fs).Nodup →
    ∃ es, toValueFields fs [] = .ok es ∧ FieldsDecode fs es
  | [], _, _ => ⟨[], rfl, trivial⟩
  | (k, v) :: fs, h, hnd => by
    simp only [RoundSafeFields] at h
    simp only [List.map_cons, List.nodup_cons] at hnd
    obtain ⟨ev, he, hd⟩ := roundTrip v h.1
    obtain ⟨es, hes, hdec⟩ := roundTripFields fs h.2 hnd.2
    refine ⟨(k, ev) :: es, ?_, ⟨rfl, hd, hdec⟩⟩
    simp only [toValueFields, he, bind_ok]
    rw [show objInsert [] k ev = [(k, ev)] from rfl]
    rw [toValueFields_acc fs [(k, ev)]
      (by
        intro k' hk'
        simp only [List.map_cons, List.map_nil, List.mem_singleton]
        exact fun heq => hnd.1 (heq ▸ hk'))
      hnd.2]
    simp [hes, Except.map]
theorem roundTripMap : ∀ kt vt entries, RoundSafeMap kt vt entries →
    (mapKeyStrs entries).Nodup →
    ∃ es, toValueMap entries [] = .ok es ∧ MapDecode kt vt entries es
  | _, _, [], _, _ => ⟨[], rfl, trivial⟩
  | kt, vt, (k, v) :: rest, h, hnd => by
    simp only [RoundSafeMap] at h
    obtain ⟨hkt, hvt, hrk, hrv, hkstr, hrest⟩ := h
    simp only [mapKeyStrs, List.map_cons, List.nodup_cons] at hnd
    obtain ⟨kev, hke, hkd⟩ := roundTrip k hrk
    have hkev : kev = .string (keyStr k) := by
      rw [hke] at hkstr
      exact Except.ok.inj hkstr
    obtain ⟨vev, hve, hvd⟩ := roundTrip v hrv
    obtain ⟨es, hes, hdec⟩ := roundTripMap kt vt rest hrest hnd.2
    refine ⟨(keyStr k, vev) :: es, ?_, ?_⟩
    · simp only [toValueMap, hkstr, bind_ok, hve]
      rw [show objInsert [] (keyStr k) vev = [(keyStr k, vev)] from rfl]
      rw [toValueMap_acc rest kt vt [(keyStr k, vev)] hrest
        (by
          intro s hs
          simp only [List.map_cons, List.map_nil, List.mem_singleton]
          exact fun heq => hnd.1 (heq ▸ hs))
        hnd.2]
      simp [hes, Except.map]
    · refine ⟨rfl, ?_, ?_, hdec⟩
      · rw [hkev, hkt] at hkd
        exact hkd
      · rw [hvt] at hvd
        exact hvd
end

/-! ### Claim theorems -/

/-- C1 (amended): for every supported typed value in the round-trip-safe
domain — no unit-shaped component, unsigned 64-bit components below `2 ^ 63`,
present optionals whose payload does not encode to `Null`, well-formed
integer ranges, matching declared types, and mapping keys encoding to
distinct strings — decoding the encoding returns the value along both paths:
`from_value (to_value v) = Ok v` and `from_slice (to_vec v) = Ok v`. -/
theorem c1_round_trip (v : Typed) (h : RoundSafe v) :
    (toValue v >>= fromValue (tyOf v)) = .ok v ∧
    (to_vec v >>= from_slice (tyOf v)) = .ok v := by
  obtain ⟨ev, he, hd⟩ := roundTrip v h
  constructor
  · rw [he, bind_ok, hd]
  · simp only [to_vec, from_slice, he, Except.map, bind_ok]
    rw [decodeBytes_encodeBytes]
    simp [bind_ok, hd]

def c1Example : Typed :=
  .tStruct "S" [("id", .tInt .w64 7), ("name", .tStr "a"),
    ("opt", .tSome (.tInt .w64 5))]

/-- Witness for C1's amended theorem at a concrete composite value. -/
theorem c1_round_trip_witness :
    RoundSafe c1Example ∧
      ((toValue c1Example >>= fromValue (tyOf c1Example)) = .ok c1Example ∧
       (to_vec c1Example >>= from_slice (tyOf c1Example)) = .ok c1Example) := by
  have h : RoundSafe c1Example := by
    simp [c1Example, RoundSafe, RoundSafeFields, toValue, intMinI, intMaxI, widthBits]
  exact ⟨h, c1_round_trip c1Example h⟩

/-- C1 (counterexample): `u64::MAX` encodes to `Integer(-1)` (the signed
reinterpretation), and serde's `u64` visitor rejects the negative integer on
the way back, so `from_value (to_value v))` is an error, not `Ok v`. -/
theorem c1_counterexample :
    (toValue (.tUInt .w64 (2 ^ 64 - 1)) >>= fromValue (tyOf (.tUInt .w64 (2 ^ 64 - 1))))
      = .error (.expected "u64" "integer `-1`") ∧
    (toValue (.tUInt .w64 (2 ^ 64 - 1)) >>= fromValue (tyOf (.tUInt .w64 (2 ^ 64 - 1))))
      ≠ .ok (.tUInt .w64 (2 ^ 64 - 1)) := by
  have h1 : toValue (.tUInt .w64 (2 ^ 64 - 1)) = .ok (.integer (-1)) := by
    simp only [toValue, uintAsI64, widthBits]
    norm_num
  have h2 : fromValue (.uint .w64) (.integer (-1)) =
      .error (.expected "u64" "integer `-1`") := by
    have hlab : unexpLabel (.integer (-1)) = "integer `-1`" := by decide
    simp [fromValue, hlab]
  constructor
  · rw [show tyOf (.tUInt .w64 (2 ^ 64 - 1)) = .uint .w64 from rfl, h1, bind_ok, h2]
  · rw [show tyOf (.tUInt .w64 (2 ^ 64 - 1)) = .uint .w64 from rfl, h1, bind_ok, h2]
    intro hx
    cases hx

/-- C2: a tagged-union unit case encodes to the bare `String` of its tag, and
decoding that string at the tagged-union target yields the same unit case. -/
theorem c2_unit_variant_fidelity (n : String)
    (variants : List (String × VariantKind)) (tag : String)
    (h : variants.lookup tag = some .unitV) :
    toValue (.tEnum n variants tag .pUnit) = .ok (.string tag) ∧
    fromValue (.enum n variants) (.string tag) = .ok (.tEnum n variants tag .pUnit) :=
  ⟨rfl, by simp [fromValue, decodeVariantBare, h]⟩

/-- Witness for C2 on a concrete enum. -/
theorem c2_unit_variant_fidelity_witness :
    List.lookup "A" [("A", VariantKind.unitV)] = some VariantKind.unitV ∧
      (toValue (.tEnum "E" [("A", .unitV)] "A" .pUnit) = .ok (.string "A") ∧
       fromValue (.enum "E" [("A", .unitV)]) (.string "A") =
         .ok (.tEnum "E" [("A", .unitV)] "A" .pUnit)) :=
  ⟨rfl, c2_unit_variant_fidelity "E" [("A", .unitV)] "A" rfl⟩

/-- C3: decoding a tagged-union target from an empty `Object` fails with
`Expected("variant name", "empty object")`; from an `Object` with two or more
keys it fails with `Expected("map with a single key", "extra key \"<k>\"")`
naming the second key in iteration order, before any variant lookup; from an
`Object` with exactly one key it proceeds with that key as the case tag (an
undeclared key surfaces as `Unknown(key)`, a declared newtype key decodes its
payload). -/
theorem c3_single_key_discipline (n : String)
    (variants : List (String × VariantKind)) (k1 k2 k kk : String)
    (v1 v2 v w : Value) (rest : List (String × Value)) (t : Ty)
    (hk : variants.lookup k = none)
    (hkk : variants.lookup kk = some (.newtypeV t)) :
    fromValue (.enum n variants) (.object []) =
      .error (.expected "variant name" "empty object") ∧
    fromValue (.enum n variants) (.object ((k1, v1) :: (k2, v2) :: rest)) =
      .error (.expected "map with a single key" ("extra key \"" ++ k2 ++ "\"")) ∧
    fromValue (.enum n variants) (.object [(k, v)]) = .error (.unknown k) ∧
    fromValue (.enum n variants) (.object [(kk, w)]) =
      (fromValue t w).map fun x => .tEnum n variants kk (.pNewtype x) := by
  refine ⟨by simp [fromValue], by simp [fromValue], ?_, ?_⟩
  · simp [fromValue, decodeVariant, hk]
  · simp [fromValue, decodeVariant, hkk]

/-- Witness for C3 on a concrete enum and concrete objects. -/
theorem c3_single_key_discipline_witness :
    (List.lookup "X" [("N", VariantKind.newtypeV (.int .w64))] = none ∧
     List.lookup "N" [("N", VariantKind.newtypeV (.int .w64))] =
       some (VariantKind.newtypeV (.int .w64))) ∧
      (fromValue (.enum "E" [("N", .newtypeV (.int .w64))]) (.object []) =
        .error (.expected "variant name" "empty object") ∧
       fromValue (.enum "E" [("N", .newtypeV (.int .w64))])
          (.object [("a", .null), ("b", .null)]) =
        .error (.expected "map with a single key" ("extra key \"" ++ "b" ++ "\"")) ∧
       fromValue (.enum "E" [("N", .newtypeV (.int .w64))]) (.object [("X", .null)]) =
        .error (.unknown "X") ∧
       fromValue (.enum "E" [("N", .newtypeV (.int .w64))]) (.object [("N", .integer 4)]) =
        (fromValue (.int .w64) (.integer 4)).map
          fun x => .tEnum "E" [("N", .newtypeV (.int .w64))] "N" (.pNewtype x)) :=
  ⟨⟨rfl, rfl⟩,
    c3_single_key_discipline "E" [("N", .newtypeV (.int .w64))] "a" "b" "X" "N"
      .null .null .null (.integer 4) [] (.int .w64) rfl rfl⟩

/-- C4: evaluating the code at the failing inputs.  `deserialize_enum` on a
non-`Object`/non-`String` value and `tuple_variant` on a non-`Array` payload
both build `Error::Expected` with the offending value's type label in the
FIRST (expected) slot and the "expected an enum"/"expected a tuple" text in
the SECOND (found) slot — the reverse of the `Expected(expected, found)`
order used by `Display` ("expected {0}, found {1}") and by every other
constructor site such as `serialize_key`. -/
theorem c4_expected_order_swapped :
    fromValue (.enum "E" [("V", .tupleV [.int .w64])]) (.integer 7) =
      .error (.expected "type integer" "expected an enum") ∧
    fromValue (.enum "E" [("V", .tupleV [.int .w64])]) (.object [("V", .boolean true)]) =
      .error (.expected "type boolean" "expected a tuple") := by
  constructor
  · simp [fromValue, error_description]
  · simp [fromValue, decodeVariant, decodeTupleVariant, error_description, Except.map]

def c5Struct : Typed := .tStruct "S" [("id", .tInt .w64 7), ("name", .tStr "a")]

def c5Obj : Value := .object [("id", .integer 7), ("name", .string "a")]

/-- C5 (counterexample): decoding `Object{"id": 7, "name": "a"}` at an
integer target fails with `Expected("i64", "map")` — serde's primitive
visitor labels, produced by `visit_map` on the stock `i64` visitor — whose
found side is "map", not the claimed fixed type label "type object". -/
theorem c5_counterexample :
    fromValue (.int .w64) c5Obj = .error (.expected "i64" "map") ∧
    "map" ≠ "type object" :=
  ⟨by simp [fromValue, c5Obj, mismatch, intTyName, unexpLabel], by decide⟩

/-- C5 (amended): `to_value {id: 7, name: "a"}` is
`Object{"id": Integer 7, "name": String "a"}`, decoding that object back at
the same struct shape returns the struct, and decoding it at an `i64` target
fails with `Expected("i64", "map")` (serde's labels) rather than a found-side
of "type object". -/
theorem c5_struct_example :
    toValue c5Struct = .ok c5Obj ∧
    fromValue (.structT "S" [("id", .int .w64), ("name", .str)]) c5Obj =
      .ok c5Struct ∧
    fromValue (.int .w64) c5Obj = .error (.expected "i64" "map") := by
  have henc : toValue c5Struct = .ok c5Obj := rfl
  have hsafe : RoundSafe c5Struct := by
    simp [c5Struct, RoundSafe, RoundSafeFields, intMinI, intMaxI, widthBits]
  obtain ⟨ev, he, hd⟩ := roundTrip c5Struct hsafe
  have hev : ev = c5Obj := by
    rw [henc] at he
    exact (Except.ok.inj he).symm
  rw [hev] at hd
  exact ⟨henc, hd, by simp [fromValue, c5Obj, mismatch, intTyName, unexpLabel]⟩

/-- C6: absent encodes to `Null` and `Null` decodes to absent at an optional
target; any non-`Null` value decodes at an optional target to
present-of-its-decode; `present x` encodes with no wrapper; and `Null` at a
non-optional `i64` target is a type mismatch
(`Expected("i64", "Option value")`). -/
theorem c6_optional_collapse (t : Ty) (x : Typed) (v : Value) (h : v ≠ .null) :
    toValue (.tNone t) = .ok .null ∧
    fromValue (.option t) .null = .ok (.tNone t) ∧
    fromValue (.option t) v = (fromValue t v).map .tSome ∧
    toValue (.tSome x) = toValue x ∧
    fromValue (.int .w64) .null = .error (.expected "i64" "Option value") :=
  ⟨rfl, by simp [fromValue], fromValue_option_notNull t v h, rfl,
    by simp [fromValue, mismatch, intTyName, unexpLabel]⟩

/-- Witness for C6 with `present(5)`. -/
theorem c6_optional_collapse_witness :
    (Value.integer 5 ≠ .null) ∧
      (toValue (.tNone (.int .w64)) = .ok .null ∧
       fromValue (.option (.int .w64)) .null = .ok (.tNone (.int .w64)) ∧
       fromValue (.option (.int .w64)) (.integer 5) =
         (fromValue (.int .w64) (.integer 5)).map .tSome ∧
       toValue (.tSome (.tInt .w64 5)) = toValue (.tInt .w64 5) ∧
       fromValue (.int .w64) .null = .error (.expected "i64" "Option value")) :=
  ⟨fun hh => Value.noConfusion hh,
    c6_optional_collapse (.int .w64) (.tInt .w64 5) (.integer 5)
      fun hh => Value.noConfusion hh⟩

/-- C7: encoding succeeds exactly when every mapping key's encoded `Value`
is a `String` (no shape in this universe raises `Custom`), and an
integer-keyed mapping fails with exactly
`Expected("type str", "type integer")`. -/
theorem c7_key_type_enforcement (v : Typed) :
    (exOk (toValue v) = true ↔ GoodKeys v) ∧
    toValue (.tMap (.uint .w64) .bool [(.tUInt .w64 3, .tBool true)]) =
      .error (.expected "type str" "type integer") :=
  ⟨toValue_isOk v, rfl⟩

/-- C8: evaluating the code at the failing input.  Encoding unit produces
`Array([])`, but decoding a unit target from `Array([])` — or from any other
`Value` — fails: `deserialize_unit` forwards to `deserialize_any`, which
sends every `Array` to `visit_seq` (de.rs line 73), and serde's unit visitor
implements only `visit_unit`; the `SeqDeserializer::deserialize_any`
empty-array-to-`visit_unit` special case is reachable only for
tuple-variant payloads, never for a unit target. -/
theorem c8_unit_decode_impossible :
    toValue .tUnit = .ok (.array []) ∧
    fromValue .unit (.array []) = .error (.expected "unit" "sequence") ∧
    (∀ v : Value, fromValue .unit v = .error (.expected "unit" (unexpLabel v))) :=
  ⟨rfl, by simp [fromValue, mismatch, unexpLabel], fun v => by simp [fromValue, mismatch]⟩

/-- C9: every signed width encodes as `Integer` of the exact value; an
unsigned value of width `w` encodes as `Integer (uintAsI64 w n)`, which is
the unique signed 64-bit two's-complement representative of `n` (congruent
to `n` modulo `2 ^ 64` and within `[-2 ^ 63, 2 ^ 63)`); in particular
`u64::MAX` encodes as `Integer (-1)`. -/
theorem c9_integer_widening (w : Width) (i : Int) (n : Nat)
    (h : n < 2 ^ widthBits w) :
    toValue (.tInt w i) = .ok (.integer i) ∧
    toValue (.tUInt w n) = .ok (.integer (uintAsI64 w n)) ∧
    (uintAsI64 w n - (n : Int)) % 2 ^ 64 = 0 ∧
    -(2 ^ 63) ≤ uintAsI64 w n ∧ uintAsI64 w n < 2 ^ 63 ∧
    toValue (.tUInt .w64 (2 ^ 64 - 1)) = .ok (.integer (-1)) := by
  refine ⟨rfl, rfl, ?_, ?_, ?_, ?_⟩
  · cases w <;>
      · simp only [uintAsI64, widthBits] at *
        norm_num at h ⊢
        omega
  · cases w <;>
      · simp only [uintAsI64, widthBits] at *
        norm_num at h ⊢
        omega
  · cases w <;>
      · simp only [uintAsI64, widthBits] at *
        norm_num at h ⊢
        omega
  · simp only [toValue, uintAsI64, widthBits]
    norm_num

/-- Witness for C9 at `u64` with value 3. -/
theorem c9_integer_widening_witness :
    3 < 2 ^ widthBits .w64 ∧
      (toValue (.tInt .w64 (-5)) = .ok (.integer (-5)) ∧
       toValue (.tUInt .w64 3) = .ok (.integer (uintAsI64 .w64 3)) ∧
       (uintAsI64 .w64 3 - (3 : Int)) % 2 ^ 64 = 0 ∧
       -(2 ^ 63) ≤ uintAsI64 .w64 3 ∧ uintAsI64 .w64 3 < 2 ^ 63 ∧
       toValue (.tUInt .w64 (2 ^ 64 - 1)) = .ok (.integer (-1))) :=
  ⟨by norm_num [widthBits], c9_integer_widening .w64 (-5) 3 (by norm_num [widthBits])⟩

/-- C10: decoding a declared unit case from `Object{tag: payload}` succeeds
even though a payload is present — `unit_variant` decodes the payload
generically as a `Value` (which always succeeds on this deserializer) and
discards it, returning the unit case. -/
theorem c10_unit_variant_ignores_payload (n : String)
    (variants : List (String × VariantKind)) (tag : String) (payload : Value)
    (h : variants.lookup tag = some .unitV) :
    fromValue (.enum n variants) (.object [(tag, payload)]) =
      .ok (.tEnum n variants tag .pUnit) := by
  obtain ⟨w, hw⟩ := valueDeserialize_ok payload
  simp [fromValue, decodeVariant, h, hw, Except.map]

/-- Witness for C10 with a discarded object payload. -/
theorem c10_unit_variant_ignores_payload_witness :
    List.lookup "A" [("A", VariantKind.unitV)] = some VariantKind.unitV ∧
      fromValue (.enum "E" [("A", .unitV)])
          (.object [("A", .object [("x", .integer 1)])]) =
        .ok (.tEnum "E" [("A", .unitV)] "A" .pUnit) :=
  ⟨rfl, c10_unit_variant_ignores_payload "E" [("A", .unitV)] "A"
    (.object [("x", .integer 1)]) rfl⟩

end BincodeJson
